import Mathlib

/-!
Verification of the FedPara baseline core (fedpara/models.py, fedpara/dataset.py)
against its natural-language specification.

The Python source is shallowly embedded: tensors become dimension-annotated
entry functions over ℚ, the stochastic partitioner is parameterised by its
random draws (shuffles as permutation-valued functions, Dirichlet draws as
positive rationals, uniform and randint draws as streams), and the two
unbounded sampling loops are executed with explicit fuel, returning none when
the fuel runs out.  Fallible construction paths return Except String.
-/

namespace FedPara

/-! ### Integer square root

np.sqrt and math.sqrt compute real square roots; the source only ever floors
or ceils them.  Nat.sqrt does not reduce in the kernel, so we use an
equivalent binary-search implementation (proved equal to Nat.sqrt below) in
the embedded definitions. -/

/-- Binary search for the integer square root of n on the interval [lo, hi],
with explicit fuel (fuel ≥ hi - lo guarantees an exact answer). -/
def sqrtAux (n : ℕ) : ℕ → ℕ → ℕ → ℕ
  | 0, lo, _ => lo
  | f + 1, lo, hi =>
    if hi ≤ lo then lo
    else
      if ((lo + hi + 1) / 2) * ((lo + hi + 1) / 2) ≤ n then
        sqrtAux n f ((lo + hi + 1) / 2) hi
      else
        sqrtAux n f lo ((lo + hi + 1) / 2 - 1)

/-- Integer square root ⌊√n⌋, the floor of the value of np.sqrt(n). -/
def floorSqrt (n : ℕ) : ℕ := sqrtAux n n 0 n

theorem sqrtAux_isSqrt (n : ℕ) :
    ∀ f lo hi, lo * lo ≤ n → n < (hi + 1) * (hi + 1) → hi ≤ lo + f →
      sqrtAux n f lo hi * sqrtAux n f lo hi ≤ n ∧
        n < (sqrtAux n f lo hi + 1) * (sqrtAux n f lo hi + 1) := by
  intro f
  induction f with
  | zero =>
    intro lo hi hlo hhi hw
    simp only [sqrtAux]
    exact ⟨hlo, lt_of_lt_of_le hhi (by nlinarith)⟩
  | succ f ih =>
    intro lo hi hlo hhi hw
    simp only [sqrtAux]
    by_cases hle : hi ≤ lo
    · simp only [hle, if_true]
      exact ⟨hlo, lt_of_lt_of_le hhi (by nlinarith)⟩
    · simp only [hle, if_false]
      have hm1 : lo + 1 ≤ (lo + hi + 1) / 2 := by omega
      have hm2 : (lo + hi + 1) / 2 ≤ hi := by omega
      by_cases hmid : ((lo + hi + 1) / 2) * ((lo + hi + 1) / 2) ≤ n
      · simp only [hmid, if_true]
        exact ih _ hi hmid hhi (by omega)
      · simp only [hmid, if_false]
        have hup : n < ((lo + hi + 1) / 2 - 1 + 1) * ((lo + hi + 1) / 2 - 1 + 1) := by
          have he : (lo + hi + 1) / 2 - 1 + 1 = (lo + hi + 1) / 2 := by omega
          rw [he]
          omega
        exact ih lo _ hlo hup (by omega)

theorem floorSqrt_isSqrt (n : ℕ) :
    floorSqrt n * floorSqrt n ≤ n ∧ n < (floorSqrt n + 1) * (floorSqrt n + 1) :=
  sqrtAux_isSqrt n n 0 n (by omega) (by nlinarith) (by omega)

/-- floorSqrt agrees with Mathlib's Nat.sqrt, hence is the floor of the real
square root. -/
theorem floorSqrt_eq_sqrt (n : ℕ) : floorSqrt n = Nat.sqrt n :=
  Nat.eq_sqrt.mpr (floorSqrt_isSqrt n)

/-- Helper: evaluate an integer ceiling of a rational from its two bounds. -/
theorem ceilEq {x : ℚ} {z : ℤ} (h1 : (z : ℚ) - 1 < x) (h2 : x ≤ (z : ℚ)) :
    ⌈x⌉ = z :=
  Int.ceil_eq_iff.mpr ⟨h1, h2⟩

/-- Helper: evaluate an integer floor of a rational from its two bounds. -/
theorem floorEq {x : ℚ} {z : ℤ} (h1 : (z : ℚ) ≤ x) (h2 : x < (z : ℚ) + 1) :
    ⌊x⌋ = z :=
  Int.floor_eq_iff.mpr ⟨h1, h2⟩

/-! ### Rank calculator (models.py, Linear._calc_from_ratio / Conv2d._calc_from_ratio) -/

/-- Ceiling of the real square root of a natural number; this is the value of
the Python expression int(np.ceil(np.sqrt(n))). -/
def natCeilSqrt (n : ℕ) : ℕ :=
  if floorSqrt n * floorSqrt n = n then floorSqrt n else floorSqrt n + 1

/-- Floored larger root of the quadratic a·x² + b·x + c = 0 with c = -t/2,
the value of math.floor((-b + math.sqrt(b**2 - 4*a*c)) / (2*a)) in the source.
Over the reals the discriminant b² - 4·a·(-t/2) equals b² + 2·a·t, an integer,
and for naturals a ≥ 1, b, t the floored larger root equals
(⌊√(b² + 2·a·t)⌋ - b) / (2·a) computed with truncated subtraction and
truncated division, which is the form used here. -/
def quadRootFloor (a b t : ℕ) : ℕ :=
  (floorSqrt (b * b + 2 * a * t) - b) / (2 * a)

/-- Maximum rank computed by Linear._calc_from_ratio: the source assigns
a, b, c = input, output, -num_target_params/2 with num_target_params =
output * input (models.py line 64). -/
def linearRMax (input output : ℕ) : ℕ :=
  quadRootFloor input output (output * input)

/-- Maximum rank computed by Conv2d._calc_from_ratio: the source assigns
a, b, c = kernel_size**2, out_channels + in_channels, -num_target_params/2
with num_target_params = out_channels * in_channels * kernel_size**2
(models.py lines 217-220). -/
def convRMax (inC outC k : ℕ) : ℕ :=
  quadRootFloor (k * k) (outC + inC) (outC * inC * (k * k))

/-- Modelled from the spec: the maximum rank as the specification (and the
source comments at models.py lines 54-60 and 210-216) state it, namely the
floored larger root of the quadratic with a = kernel_size², b = dim_in +
dim_out and c = -(dim_in·dim_out·kernel_size²)/2. -/
def specRMax (dimIn dimOut k : ℕ) : ℕ :=
  quadRootFloor (k * k) (dimIn + dimOut) (dimIn * dimOut * (k * k))

/-- Shared final step of both _calc_from_ratio methods:
rank = math.ceil((1 - ratio)*r + ratio*r3). -/
def interpRank (r r3 : ℕ) ( ratio : ℚ) : ℤ :=
  ⌈(1 - ratio) * (r : ℚ) + ratio * (r3 : ℚ)⌉

/-- Rank returned by Linear._calc_from_ratio (models.py lines 47-68):
rank = math.ceil((1 - ratio)*r + ratio*r3) with r = min(⌈√output⌉, ⌈√input⌉)
and r3 the floored larger root above. -/
def linearCalcFromRatio ( ratio : ℚ) (input output : ℕ) : ℤ :=
  interpRank (min (natCeilSqrt output) (natCeilSqrt input))
    (linearRMax input output) ratio

/-- Rank returned by Conv2d._calc_from_ratio (models.py lines 201-224). -/
def convCalcFromRatio ( ratio : ℚ) (inC outC k : ℕ) : ℤ :=
  interpRank (min (natCeilSqrt outC) (natCeilSqrt inC))
    (convRMax inC outC k) ratio

/-- C1: the linear layer's maximum-rank computation does not use the quadratic
stated by the specification and by the source's own comment (a = kernel_size²
= 1, b = dim_in + dim_out): at the FC default dimensions dim_in = 784,
dim_out = 256 the code computes r_max = 11 from a = dim_in, b = dim_out,
while the claimed quadratic gives 88.  The convolution layer's computation
does agree with the claimed quadratic for all dimensions. -/
theorem c1_linear_rmax_deviates_from_spec_quadratic :
    linearRMax 784 256 = 11 ∧ specRMax 784 256 1 = 88 ∧
      ∀ inC outC k, convRMax inC outC k = specRMax inC outC k := by
  refine ⟨by decide, by decide, ?_⟩
  intro inC outC k
  unfold convRMax specRMax quadRootFloor
  rw [Nat.add_comm outC inC, Nat.mul_comm outC inC]

/-- Helper: the interpolated rank ⌈(1-ratio)·r + ratio·r3⌉ is at least 1, lies
between r and r3, and is monotone in the ratio, whenever 1 ≤ r ≤ r3 and
0 ≤ ratio ≤ ratio' ≤ 1. -/
theorem interpRank_bounds (r r3 : ℕ) ( ratio ratio' : ℚ)
    (hr : 1 ≤ r) (hrm : r ≤ r3) (h0 : 0 ≤ ratio) (hrr : ratio ≤ ratio')
    (h1 : ratio' ≤ 1) :
    1 ≤ interpRank r r3 ratio ∧
    (r : ℤ) ≤ interpRank r r3 ratio ∧
    interpRank r r3 ratio ≤ (r3 : ℤ) ∧
    interpRank r r3 ratio ≤ interpRank r r3 ratio' := by
  unfold interpRank
  have hc : (r : ℚ) ≤ (r3 : ℚ) := by exact_mod_cast hrm
  have hlow : (r : ℚ) ≤ (1 - ratio) * (r : ℚ) + ratio * (r3 : ℚ) := by nlinarith
  have hhigh : (1 - ratio) * (r : ℚ) + ratio * (r3 : ℚ) ≤ (r3 : ℚ) := by nlinarith
  have hmono : (1 - ratio) * (r : ℚ) + ratio * (r3 : ℚ) ≤
      (1 - ratio') * (r : ℚ) + ratio' * (r3 : ℚ) := by nlinarith
  have hrle : (r : ℤ) ≤ ⌈(1 - ratio) * (r : ℚ) + ratio * (r3 : ℚ)⌉ := by
    have h := Int.ceil_mono hlow
    rwa [Int.ceil_natCast] at h
  refine ⟨?_, hrle, ?_, Int.ceil_mono hmono⟩
  · exact le_trans (by exact_mod_cast hr) hrle
  · have h := Int.ceil_mono hhigh
    rwa [Int.ceil_natCast] at h

/-- Helper: ⌈√n⌉ is positive for positive n. -/
theorem one_le_natCeilSqrt {n : ℕ} (h : 1 ≤ n) : 1 ≤ natCeilSqrt n := by
  unfold natCeilSqrt
  split
  · rename_i heq
    rcases Nat.eq_zero_or_pos (floorSqrt n) with h0 | h1
    · exfalso
      have hs : Nat.sqrt n = 0 := by rw [← floorSqrt_eq_sqrt, h0]
      have : n = 0 := Nat.sqrt_eq_zero.mp hs
      omega
    · exact h1
  · omega

/-- C2 counterexample: at dim_in = dim_out = 1 and ratio = 1 the linear
layer's computed rank is 0 — not a positive integer, and strictly below
r_min = min(⌈√1⌉, ⌈√1⌉) = 1 — refuting the claim as stated for all positive
dimensions and every ratio in [0, 1]. -/
theorem c2_rank_guarantee_counterexample :
    linearCalcFromRatio 1 1 1 = 0 ∧
      min (natCeilSqrt 1) (natCeilSqrt 1) = 1 := by
  constructor
  · unfold linearCalcFromRatio interpRank
    rw [show natCeilSqrt 1 = 1 by decide, show linearRMax 1 1 = 0 by decide]
    exact ceilEq (by norm_num) (by norm_num)
  · decide

/-- C2 (amended): for positive dimensions whose computed r_min does not
exceed the computed r_max, and every 0 ≤ ratio ≤ ratio' ≤ 1, the rank
computed by Linear._calc_from_ratio and by Conv2d._calc_from_ratio is a
positive integer, lies between r_min and r_max, and is monotone
non-decreasing in the ratio. -/
theorem c2_rank_bounds_and_monotone ( ratio ratio' : ℚ)
    (input output inC outC k : ℕ)
    (hin : 1 ≤ input) (hout : 1 ≤ output) (hinC : 1 ≤ inC) (houtC : 1 ≤ outC)
    (h0 : 0 ≤ ratio) (hrr : ratio ≤ ratio') (h1 : ratio' ≤ 1)
    (hlin : min (natCeilSqrt output) (natCeilSqrt input) ≤ linearRMax input output)
    (hconv : min (natCeilSqrt outC) (natCeilSqrt inC) ≤ convRMax inC outC k) :
    (1 ≤ linearCalcFromRatio ratio input output ∧
      ((min (natCeilSqrt output) (natCeilSqrt input) : ℕ) : ℤ) ≤
        linearCalcFromRatio ratio input output ∧
      linearCalcFromRatio ratio input output ≤ (linearRMax input output : ℤ) ∧
      linearCalcFromRatio ratio input output ≤
        linearCalcFromRatio ratio' input output) ∧
    (1 ≤ convCalcFromRatio ratio inC outC k ∧
      ((min (natCeilSqrt outC) (natCeilSqrt inC) : ℕ) : ℤ) ≤
        convCalcFromRatio ratio inC outC k ∧
      convCalcFromRatio ratio inC outC k ≤ (convRMax inC outC k : ℤ) ∧
      convCalcFromRatio ratio inC outC k ≤
        convCalcFromRatio ratio' inC outC k) := by
  have hminL : 1 ≤ min (natCeilSqrt output) (natCeilSqrt input) :=
    le_min (one_le_natCeilSqrt hout) (one_le_natCeilSqrt hin)
  have hminC : 1 ≤ min (natCeilSqrt outC) (natCeilSqrt inC) :=
    le_min (one_le_natCeilSqrt houtC) (one_le_natCeilSqrt hinC)
  constructor
  · exact interpRank_bounds (min (natCeilSqrt output) (natCeilSqrt input))
      (linearRMax input output) ratio ratio' hminL hlin h0 hrr h1
  · exact interpRank_bounds (min (natCeilSqrt outC) (natCeilSqrt inC))
      (convRMax inC outC k) ratio ratio' hminC hconv h0 hrr h1

/-- Witness for C2 (amended) at linear dims (10, 200), conv dims (64, 64, 3),
ratio = 1/2, ratio' = 1: there r_min = 4 = r_max for the linear layer and
r_min = 8 ≤ 38 = r_max for the conv layer. -/
theorem c2_rank_bounds_and_monotone_witness :
    (min (natCeilSqrt 200) (natCeilSqrt 10) ≤ linearRMax 10 200 ∧
      min (natCeilSqrt 64) (natCeilSqrt 64) ≤ convRMax 64 64 3) ∧
    (1 ≤ linearCalcFromRatio (1/2) 10 200 ∧
      ((min (natCeilSqrt 200) (natCeilSqrt 10) : ℕ) : ℤ) ≤
        linearCalcFromRatio (1/2) 10 200 ∧
      linearCalcFromRatio (1/2) 10 200 ≤ (linearRMax 10 200 : ℤ) ∧
      linearCalcFromRatio (1/2) 10 200 ≤ linearCalcFromRatio 1 10 200) ∧
    (1 ≤ convCalcFromRatio (1/2) 64 64 3 ∧
      ((min (natCeilSqrt 64) (natCeilSqrt 64) : ℕ) : ℤ) ≤
        convCalcFromRatio (1/2) 64 64 3 ∧
      convCalcFromRatio (1/2) 64 64 3 ≤ (convRMax 64 64 3 : ℤ) ∧
      convCalcFromRatio (1/2) 64 64 3 ≤ convCalcFromRatio 1 64 64 3) := by
  have hlin : min (natCeilSqrt 200) (natCeilSqrt 10) ≤ linearRMax 10 200 := by
    decide
  have hconv : min (natCeilSqrt 64) (natCeilSqrt 64) ≤ convRMax 64 64 3 := by
    decide
  have h := c2_rank_bounds_and_monotone (1/2) 1 10 200 64 64 3
    (by norm_num) (by norm_num) (by norm_num) (by norm_num)
    (by norm_num) (by norm_num) (by norm_num) hlin hconv
  exact ⟨⟨hlin, hconv⟩, h.1, h.2⟩

/-! ### Matrix and tensor model

Tensors are embedded as dimension-annotated total entry functions over ℚ
(entries outside the stated dimensions are irrelevant junk). -/

structure Mat where
  rows : ℕ
  cols : ℕ
  entry : ℕ → ℕ → ℚ

structure Vecq where
  len : ℕ
  entry : ℕ → ℚ

def Mat.transpose (A : Mat) : Mat :=
  ⟨A.cols, A.rows, fun i j => A.entry j i⟩

def Mat.mul (A B : Mat) : Mat :=
  ⟨A.rows, B.cols, fun i j => ∑ t ∈ Finset.range A.cols, A.entry i t * B.entry t j⟩

def Mat.hadamard (A B : Mat) : Mat :=
  ⟨A.rows, A.cols, fun i j => A.entry i j * B.entry i j⟩

def Mat.madd (A B : Mat) : Mat :=
  ⟨A.rows, A.cols, fun i j => A.entry i j + B.entry i j⟩

/-! ### Factorized linear layer (models.py, LowRankNN / Linear) -/

/-- LowRankNN.__init__ (models.py lines 16-30): X is a (input, rank) tensor
and Y a (output, rank) tensor.  kaiming_normal_ only writes random values
(modelled by the entry parameters xe, ye); on zero-element tensors it
returns as a warning-only no-op (PyTorch 1.7 and later), so it never raises
and construction is total.  The activation argument only selects the gain
of the random initialisation and is dropped. -/
structure LowRankNN where
  X : Mat
  Y : Mat

def lowRankNNInit (input output rank : ℕ) (xe ye : ℕ → ℕ → ℚ) : LowRankNN :=
  ⟨⟨input, rank, xe⟩, ⟨output, rank, ye⟩⟩

/-- LowRankNN.forward (models.py lines 32-34):
torch.einsum("xr,yr->xy", X, Y), a (input, output) matrix. -/
def lowRankNNForward (w : LowRankNN) : Mat :=
  ⟨w.X.rows, w.Y.rows,
    fun i j => ∑ t ∈ Finset.range w.X.cols, w.X.entry i t * w.Y.entry j t⟩

/-- Linear (models.py lines 36-45): two LowRankNN factor pairs, an optional
bias attribute (only created when bias=True — no attribute exists otherwise),
and the pfedpara flag. -/
structure LinearLayer where
  w1 : LowRankNN
  w2 : LowRankNN
  bias : Option Vecq
  pfedpara : Bool

/-- Linear.__init__: rank = self._calc_from_ratio(ratio, input, output);
bias (when created) is torch.zeros(output).  The Python call sites in FC use
the defaults bias=True, pfedpara=True, passed explicitly here. -/
def linearInit (input output : ℕ) ( ratio : ℚ) (bias pfedpara : Bool)
    (x1e y1e x2e y2e : ℕ → ℕ → ℚ) : LinearLayer :=
  ⟨lowRankNNInit input output (linearCalcFromRatio ratio input output).toNat x1e y1e,
   lowRankNNInit input output (linearCalcFromRatio ratio input output).toNat x2e y2e,
   if bias then some ⟨output, fun _ => 0⟩ else none,
   pfedpara⟩

/-- torch.nn.functional.linear(x, w, b) = x·wᵀ + b.  It requires
x.cols = w.cols, and the bias must broadcast against the (x.rows, w.rows)
result: its length must equal w.rows or 1. -/
def flinear (x w : Mat) (b : Option Vecq) : Except String Mat :=
  if x.cols = w.cols then
    match b with
    | none =>
      Except.ok ⟨x.rows, w.rows,
        fun i j => ∑ t ∈ Finset.range x.cols, x.entry i t * w.entry j t⟩
    | some bv =>
      if bv.len = w.rows ∨ bv.len = 1 then
        Except.ok ⟨x.rows, w.rows, fun i j =>
          (∑ t ∈ Finset.range x.cols, x.entry i t * w.entry j t) +
            bv.entry (if bv.len = 1 then 0 else j)⟩
      else Except.error "RuntimeError: bias shape mismatch"
  else Except.error "RuntimeError: mat1 and mat2 shapes cannot be multiplied"

/-- Effective weight of Linear.forward (models.py lines 70-77):
w1() * w2() + w1() when pfedpara, else w1() * w2(). -/
def linearEffectiveWeight (L : LinearLayer) : Mat :=
  if L.pfedpara then
    Mat.madd (Mat.hadamard (lowRankNNForward L.w1) (lowRankNNForward L.w2))
      (lowRankNNForward L.w1)
  else
    Mat.hadamard (lowRankNNForward L.w1) (lowRankNNForward L.w2)

/-- Linear.forward: F.linear(x, w, self.bias).  Reading self.bias on a layer
built with bias=False raises AttributeError (nn.Module has no such attribute
then), before any arithmetic happens. -/
def linearForward (L : LinearLayer) (x : Mat) : Except String Mat :=
  match L.bias with
  | none => Except.error "AttributeError: Linear object has no attribute bias"
  | some b => flinear x (linearEffectiveWeight L) (some b)

/-! ### FC model (models.py lines 80-95) -/

/-- Placeholder for a standard nn.Linear layer. -/
structure DenseLinear where
  inF : ℕ
  outF : ℕ

inductive FCNet where
  | standard (fc1 fc2 : DenseLinear)
  | lowrank (fc1 fc2 : LinearLayer)

/-- FC.__init__: dispatch on param_type; unknown values raise ValueError.
In the lowrank branch the calls Linear(input_size, hidden_size, ratio,
activation) leave the Python defaults bias=True, pfedpara=True in force.
The es parameter supplies the random factor initialisations. -/
def fcInit (paramType : String) (inputSize hiddenSize numClasses : ℕ)
    ( ratio : ℚ) (es : ℕ → ℕ → ℕ → ℚ) : Except String FCNet :=
  if paramType = "standard" then
    Except.ok (FCNet.standard ⟨inputSize, hiddenSize⟩ ⟨hiddenSize, numClasses⟩)
  else if paramType = "lowrank" then
    Except.ok (FCNet.lowrank
      (linearInit inputSize hiddenSize ratio true true (es 0) (es 1) (es 2) (es 3))
      (linearInit hiddenSize numClasses ratio true true (es 4) (es 5) (es 6) (es 7)))
  else Except.error "param_type must be either standard or lowrank"

/-- C4: whenever Linear.forward returns a result, the effective weight is
W1 ⊙ W2 + W1 (pfedpara=True) or W1 ⊙ W2 (pfedpara=False), with
W1 = X1·Y1ᵀ and W2 = X2·Y2ᵀ, and the output is x·(effective weight)ᵀ plus
the bias broadcast along rows. -/
theorem c4_linear_forward_is_input_mul_weight_plus_bias (L : LinearLayer)
    (x out : Mat) (h : linearForward L x = Except.ok out) :
    (∀ i j, (linearEffectiveWeight L).entry i j =
      if L.pfedpara then
        (Mat.mul L.w1.X (Mat.transpose L.w1.Y)).entry i j *
          (Mat.mul L.w2.X (Mat.transpose L.w2.Y)).entry i j +
          (Mat.mul L.w1.X (Mat.transpose L.w1.Y)).entry i j
      else
        (Mat.mul L.w1.X (Mat.transpose L.w1.Y)).entry i j *
          (Mat.mul L.w2.X (Mat.transpose L.w2.Y)).entry i j) ∧
    out.rows = x.rows ∧ out.cols = (linearEffectiveWeight L).rows ∧
    ∃ b, L.bias = some b ∧ ∀ i j, out.entry i j =
      (Mat.mul x (Mat.transpose (linearEffectiveWeight L))).entry i j +
        b.entry (if b.len = 1 then 0 else j) := by
  have hw : ∀ w : LowRankNN, ∀ i j, (lowRankNNForward w).entry i j =
      (Mat.mul w.X (Mat.transpose w.Y)).entry i j := by
    intro w i j
    simp [lowRankNNForward, Mat.mul, Mat.transpose]
  refine ⟨?_, ?_⟩
  · intro i j
    by_cases hp : L.pfedpara <;>
      simp [linearEffectiveWeight, hp, Mat.madd, Mat.hadamard, hw]
  · cases hb : L.bias with
    | none => simp only [linearForward, hb, reduceCtorEq] at h
    | some b =>
      simp only [linearForward, hb, flinear] at h
      split_ifs at h with h1 h2 h3
      · simp only [Except.ok.injEq] at h
        subst h
        refine ⟨rfl, rfl, b, rfl, ?_⟩
        intro i j
        simp [Mat.mul, Mat.transpose, h1, h3]
      · simp only [Except.ok.injEq] at h
        subst h
        refine ⟨rfl, rfl, b, rfl, ?_⟩
        intro i j
        simp [Mat.mul, Mat.transpose, h1, h3]

def c4Layer : LinearLayer :=
  linearInit 1 1 0 true true (fun _ _ => 1) (fun _ _ => 1) (fun _ _ => 1)
    (fun _ _ => 1)

def c4Input : Mat := ⟨1, 1, fun _ _ => 2⟩

def c4Out : Mat :=
  (linearForward c4Layer c4Input).toOption.getD ⟨0, 0, fun _ _ => 0⟩

/-- Witness for C4 at a 1×1 layer (rank 1, all factor entries 1, bias zeros,
pfedpara) applied to the input (2). -/
theorem c4_linear_forward_is_input_mul_weight_plus_bias_witness :
    (∀ i j, (linearEffectiveWeight c4Layer).entry i j =
      if c4Layer.pfedpara then
        (Mat.mul c4Layer.w1.X (Mat.transpose c4Layer.w1.Y)).entry i j *
          (Mat.mul c4Layer.w2.X (Mat.transpose c4Layer.w2.Y)).entry i j +
          (Mat.mul c4Layer.w1.X (Mat.transpose c4Layer.w1.Y)).entry i j
      else
        (Mat.mul c4Layer.w1.X (Mat.transpose c4Layer.w1.Y)).entry i j *
          (Mat.mul c4Layer.w2.X (Mat.transpose c4Layer.w2.Y)).entry i j) ∧
    c4Out.rows = c4Input.rows ∧ c4Out.cols = (linearEffectiveWeight c4Layer).rows ∧
    ∃ b, c4Layer.bias = some b ∧ ∀ i j, c4Out.entry i j =
      (Mat.mul c4Input (Mat.transpose (linearEffectiveWeight c4Layer))).entry i j +
        b.entry (if b.len = 1 then 0 else j) :=
  c4_linear_forward_is_input_mul_weight_plus_bias c4Layer c4Input c4Out rfl

/-- C9: an FC model built with param_type = "lowrank" has both low-rank
Linear layers flagged pfedpara = true (the Python default), so their forward
passes always use the personalized effective weight W1 ⊙ W2 + W1 and never
the plain W1 ⊙ W2. -/
theorem c9_fc_lowrank_layers_personalized (inputSize hiddenSize numClasses : ℕ)
    ( ratio : ℚ) (es : ℕ → ℕ → ℕ → ℚ) (fc1 fc2 : LinearLayer)
    (h : fcInit "lowrank" inputSize hiddenSize numClasses ratio es =
      Except.ok (FCNet.lowrank fc1 fc2)) :
    fc1.pfedpara = true ∧ fc2.pfedpara = true ∧
    (∀ L : LinearLayer, L.pfedpara = true → ∀ i j,
      (linearEffectiveWeight L).entry i j =
        (lowRankNNForward L.w1).entry i j * (lowRankNNForward L.w2).entry i j +
          (lowRankNNForward L.w1).entry i j) := by
  unfold fcInit at h
  rw [if_neg (by decide), if_pos rfl] at h
  simp only [Except.ok.injEq, FCNet.lowrank.injEq] at h
  obtain ⟨h1, h2⟩ := h
  refine ⟨by rw [← h1]; rfl, by rw [← h2]; rfl, ?_⟩
  intro L hL i j
  simp [linearEffectiveWeight, hL, Mat.madd, Mat.hadamard]

def c9FC1 : LinearLayer :=
  linearInit 1 1 0 true true (fun _ _ => 0) (fun _ _ => 0) (fun _ _ => 0)
    (fun _ _ => 0)

/-- Witness for C9 at input_size = hidden_size = num_classes = 1, ratio 0,
zero random initialisation. -/
theorem c9_fc_lowrank_layers_personalized_witness :
    c9FC1.pfedpara = true ∧ c9FC1.pfedpara = true ∧
    (∀ L : LinearLayer, L.pfedpara = true → ∀ i j,
      (linearEffectiveWeight L).entry i j =
        (lowRankNNForward L.w1).entry i j * (lowRankNNForward L.w2).entry i j +
          (lowRankNNForward L.w1).entry i j) :=
  c9_fc_lowrank_layers_personalized 1 1 1 0 (fun _ _ _ => 0) c9FC1 c9FC1 rfl

/-- C10: a factorized Linear layer built with bias=False has no bias
attribute, so every forward call fails with AttributeError; conversely a
successful forward requires that the bias attribute exists, i.e. that the
layer was built with bias=True. -/
theorem c10_linear_needs_bias (input output : ℕ) ( ratio : ℚ) (pf : Bool)
    (x1e y1e x2e y2e : ℕ → ℕ → ℚ) (x : Mat) :
    (linearForward (linearInit input output ratio false pf x1e y1e x2e y2e) x =
      Except.error "AttributeError: Linear object has no attribute bias") ∧
    (∀ (L : LinearLayer) (out : Mat), linearForward L x = Except.ok out →
      L.bias.isSome = true) := by
  constructor
  · rfl
  · intro L out h
    cases hb : L.bias with
    | none => simp only [linearForward, hb, reduceCtorEq] at h
    | some b => rfl

def c10Out : Mat :=
  (linearForward c4Layer c4Input).toOption.getD ⟨0, 0, fun _ _ => 0⟩

/-- Witness for C10: with bias=False the 1×1 layer's forward fails, and the
successful forward of c4Layer (bias=True) exemplifies the converse. -/
theorem c10_linear_needs_bias_witness :
    (linearForward (linearInit 1 1 0 false true (fun _ _ => 1) (fun _ _ => 1)
        (fun _ _ => 1) (fun _ _ => 1)) c4Input =
      Except.error "AttributeError: Linear object has no attribute bias") ∧
    (∀ (L : LinearLayer) (out : Mat), linearForward L c4Input = Except.ok out →
      L.bias.isSome = true) :=
  c10_linear_needs_bias 1 1 0 true (fun _ _ => 1) (fun _ _ => 1) (fun _ _ => 1)
    (fun _ _ => 1) c4Input

/-! ### Factorized convolution layer (models.py, LowRank / Conv2d) -/

structure Ten4 where
  d0 : ℕ
  d1 : ℕ
  d2 : ℕ
  d3 : ℕ
  entry : ℕ → ℕ → ℕ → ℕ → ℚ

/-- LowRank (models.py lines 132-158): T is (low_rank, low_rank, k, k),
X is (low_rank, out_channels), Y is (low_rank, in_channels). -/
structure LowRankConv where
  T : Ten4
  X : Mat
  Y : Mat

/-- LowRank.__init__ (models.py lines 135-158): creates T of shape
(low_rank, low_rank, k, k), X of shape (low_rank, out_channels) and Y of
shape (low_rank, in_channels), then applies kaiming_normal_(·, "fan_out")
to each.  kaiming_normal_ only writes random values (modelled by the entry
parameters); with low_rank = 0 the tensors are zero-element and it returns
as a warning-only no-op (PyTorch 1.7 and later) — the only way its fan_out
divisor could be 0 — so it never raises and construction is total. -/
def lowRankConvMk (inC outC lowRank k : ℕ) (te : ℕ → ℕ → ℕ → ℕ → ℚ)
    (xe ye : ℕ → ℕ → ℚ) : LowRankConv :=
  ⟨⟨lowRank, lowRank, k, k, te⟩, ⟨lowRank, outC, xe⟩, ⟨lowRank, inC, ye⟩⟩

/-- LowRank.forward (models.py lines 160-163):
torch.einsum("xyzw,xo,yi->oizw", T, X, Y), a dense
(out_channels, in_channels, k, k) kernel. -/
def lowRankConvForward (w : LowRankConv) : Ten4 :=
  ⟨w.X.cols, w.Y.cols, w.T.d2, w.T.d3, fun o i z v =>
    ∑ a ∈ Finset.range w.T.d0, ∑ c ∈ Finset.range w.T.d1,
      w.T.entry a c z v * w.X.entry a o * w.Y.entry c i⟩

/-- Conv2d (models.py lines 166-199). -/
structure Conv2dLayer where
  inChannels : ℕ
  outChannels : ℕ
  kernelSize : ℕ
  stride : ℕ
  padding : ℕ
  lowRank : ℕ
  addNonlinear : Bool
  W1 : LowRankConv
  W2 : LowRankConv
  bias : Option Vecq

/-- Conv2d.__init__ (models.py lines 169-199): low_rank =
self._calc_from_ratio().  A negative size would make torch.empty raise,
while a zero low_rank simply creates zero-element factor tensors on which
kaiming_normal_ no-ops, so construction succeeds for every nonnegative
computed rank. -/
def conv2dInit (inC outC k stride padding : ℕ) (bias : Bool) ( ratio : ℚ)
    (addNonlinear : Bool) (te1 te2 : ℕ → ℕ → ℕ → ℕ → ℚ)
    (xe1 ye1 xe2 ye2 : ℕ → ℕ → ℚ) : Except String Conv2dLayer :=
  if convCalcFromRatio ratio inC outC k < 0 then
    Except.error "RuntimeError: cannot create tensor with negative dimension"
  else
    Except.ok ⟨inC, outC, k, stride, padding,
      (convCalcFromRatio ratio inC outC k).toNat, addNonlinear,
      lowRankConvMk inC outC (convCalcFromRatio ratio inC outC k).toNat k
        te1 xe1 ye1,
      lowRankConvMk inC outC (convCalcFromRatio ratio inC outC k).toNat k
        te2 xe2 ye2,
      if bias then some ⟨outC, fun _ => 0⟩ else none⟩

/-- C3: the convolution reconstruction has the claimed shape
(out_channels, in_channels, k, k) for all dimensions, but the linear
reconstruction has shape (dim_in, dim_out) — the einsum "xr,yr->xy" puts the
input axis first — not the claimed (dim_out, dim_in).  At the FC layer
Linear(784, 256) the computed shape (784, 256) therefore differs from the
claimed (256, 784), and F.linear in the layer's own forward requires the
transposed orientation. -/
theorem c3_linear_weight_shape_is_input_by_output :
    (∀ (input output : ℕ) ( ratio : ℚ) (b pf : Bool)
      (x1e y1e x2e y2e : ℕ → ℕ → ℚ),
      (lowRankNNForward
        (linearInit input output ratio b pf x1e y1e x2e y2e).w1).rows = input ∧
      (lowRankNNForward
        (linearInit input output ratio b pf x1e y1e x2e y2e).w1).cols = output) ∧
    (∀ (inC outC lr k : ℕ) (te : ℕ → ℕ → ℕ → ℕ → ℚ) (xe ye : ℕ → ℕ → ℚ),
      (lowRankConvForward (lowRankConvMk inC outC lr k te xe ye)).d0 = outC ∧
      (lowRankConvForward (lowRankConvMk inC outC lr k te xe ye)).d1 = inC ∧
      (lowRankConvForward (lowRankConvMk inC outC lr k te xe ye)).d2 = k ∧
      (lowRankConvForward (lowRankConvMk inC outC lr k te xe ye)).d3 = k) ∧
    (784 : ℕ) ≠ 256 :=
  ⟨fun _ _ _ _ _ _ _ _ _ => ⟨rfl, rfl⟩,
   fun _ _ _ _ _ _ _ => ⟨rfl, rfl, rfl, rfl⟩,
   by decide⟩

/-- C6: contrary to the claim, a factorized convolution whose computed
low_rank is below 1 does not fail at construction.  At in_channels =
out_channels = 1, kernel 3, ratio 1 the computed low_rank is 0;
torch.empty creates the zero-element factor tensors and kaiming_normal_
(PyTorch 1.7 and later) returns as a warning-only no-op on them, so
Conv2d.__init__ succeeds and silently builds a degenerate rank-0 layer —
for any stride, padding, nonlinearity flag and random initialisation. -/
theorem c6_conv_rank_below_one_builds_degenerate_layer :
    convCalcFromRatio 1 1 1 3 < 1 ∧
    ∀ (stride padding : ℕ) (an : Bool) (te1 te2 : ℕ → ℕ → ℕ → ℕ → ℚ)
      (xe1 ye1 xe2 ye2 : ℕ → ℕ → ℚ),
      conv2dInit 1 1 3 stride padding false 1 an te1 te2 xe1 ye1 xe2 ye2 =
        Except.ok ⟨1, 1, 3, stride, padding, 0, an,
          lowRankConvMk 1 1 0 3 te1 xe1 ye1,
          lowRankConvMk 1 1 0 3 te2 xe2 ye2, none⟩ := by
  have h0 : convCalcFromRatio 1 1 1 3 = 0 := by
    unfold convCalcFromRatio
    rw [show natCeilSqrt 1 = 1 by decide, show convRMax 1 1 3 = 0 by decide]
    unfold interpRank
    exact ceilEq (by norm_num) (by norm_num)
  refine ⟨by rw [h0]; norm_num, ?_⟩
  intro stride padding an te1 te2 xe1 ye1 xe2 ye2
  unfold conv2dInit
  rw [h0, if_neg (by norm_num)]
  rfl

/-! ### VGG (models.py lines 239-324) -/

/-- Placeholder for a standard nn.Conv2d feature module; reinitialized
records whether the "standard" branch of _init_weights reset its weights. -/
structure TorchConv where
  inChannels : ℕ
  outChannels : ℕ
  kernelSize : ℕ
  stride : ℕ
  padding : ℕ
  hasBias : Bool
  reinitialized : Bool

inductive VGGModule where
  | conv (c : TorchConv)
  | lowrankConv (c : Conv2dLayer)
  | maxPool
  | groupNorm (numGroups channels : ℕ)
  | act

/-- Body of the loop in VGG._init_weights (models.py lines 294-324) for one
feature module: nn.Conv2d modules are replaced by low-rank Conv2d when
conv_type == "lowrank", reinitialised in place when conv_type == "standard",
and — with no else branch in the source — left untouched for any other
conv_type value.  Non-conv modules are never touched. -/
def vggInitStep (convType : String) ( ratio : ℚ) (addNonlinear : Bool)
    (te1 te2 : ℕ → ℕ → ℕ → ℕ → ℚ) (xe1 ye1 xe2 ye2 : ℕ → ℕ → ℚ)
    (m : VGGModule) : Except String VGGModule :=
  match m with
  | VGGModule.conv c =>
    if convType = "lowrank" then
      (conv2dInit c.inChannels c.outChannels c.kernelSize c.stride c.padding
        c.hasBias ratio addNonlinear te1 te2 xe1 ye1 xe2 ye2).map
        VGGModule.lowrankConv
    else if convType = "standard" then
      Except.ok (VGGModule.conv { c with reinitialized := true })
    else Except.ok (VGGModule.conv c)
  | m => Except.ok m

/-- VGG._init_weights: the for-loop over the feature modules, applying
vggInitStep to each in order and propagating any raised error. -/
def vggInitWeights (convType : String) ( ratio : ℚ) (addNonlinear : Bool)
    (te1 te2 : ℕ → ℕ → ℕ → ℕ → ℚ) (xe1 ye1 xe2 ye2 : ℕ → ℕ → ℚ) :
    List VGGModule → Except String (List VGGModule)
  | [] => Except.ok []
  | m :: rest => do
    let m2 ← vggInitStep convType ratio addNonlinear te1 te2 xe1 ye1 xe2 ye2 m
    let rest2 ← vggInitWeights convType ratio addNonlinear te1 te2 xe1 ye1
      xe2 ye2 rest
    Except.ok (m2 :: rest2)

/-- C8 counterexample: VGG._init_weights with the unknown conv_type "bogus"
raises no error and returns every module unchanged, refuting the claim that
unknown conv_type strings cause a construction-time configuration error. -/
theorem c8_unknown_conv_type_counterexample :
    ("bogus" ≠ "lowrank" ∧ "bogus" ≠ "standard") ∧
    vggInitWeights "bogus" (1/10) false (fun _ _ _ _ => 0) (fun _ _ _ _ => 0)
      (fun _ _ => 0) (fun _ _ => 0) (fun _ _ => 0) (fun _ _ => 0)
      [VGGModule.conv ⟨3, 64, 3, 1, 1, true, false⟩] =
      Except.ok [VGGModule.conv ⟨3, 64, 3, 1, 1, true, false⟩] := by
  refine ⟨⟨by decide, by decide⟩, ?_⟩
  simp [vggInitWeights, vggInitStep, Bind.bind, Except.bind]

/-- C8 (amended): an unknown param_type makes FC.__init__ raise a
configuration error before training, but an unknown conv_type is silently
ignored by VGG._init_weights: it raises nothing and leaves every module
unchanged. -/
theorem c8_unknown_mode_strings (pt ct : String)
    (hpt1 : pt ≠ "standard") (hpt2 : pt ≠ "lowrank")
    (hct1 : ct ≠ "lowrank") (hct2 : ct ≠ "standard")
    (inputSize hiddenSize numClasses : ℕ) ( ratio : ℚ) (es : ℕ → ℕ → ℕ → ℚ)
    (an : Bool) (te1 te2 : ℕ → ℕ → ℕ → ℕ → ℚ) (xe1 ye1 xe2 ye2 : ℕ → ℕ → ℚ)
    (mods : List VGGModule) :
    fcInit pt inputSize hiddenSize numClasses ratio es =
      Except.error "param_type must be either standard or lowrank" ∧
    vggInitWeights ct ratio an te1 te2 xe1 ye1 xe2 ye2 mods =
      Except.ok mods := by
  constructor
  · unfold fcInit
    rw [if_neg hpt1, if_neg hpt2]
  · have hstep : ∀ m, vggInitStep ct ratio an te1 te2 xe1 ye1 xe2 ye2 m =
        Except.ok m := by
      intro m
      cases m <;> simp [vggInitStep, hct1, hct2]
    induction mods with
    | nil => rfl
    | cons m rest ih =>
      rw [vggInitWeights, hstep m, ih]
      rfl

/-- Witness for C8 (amended) at pt = ct = "bogus" on a single-module list. -/
theorem c8_unknown_mode_strings_witness :
    fcInit "bogus" 784 256 10 (1/10) (fun _ _ _ => 0) =
      Except.error "param_type must be either standard or lowrank" ∧
    vggInitWeights "bogus" (1/10) false (fun _ _ _ _ => 0) (fun _ _ _ _ => 0)
      (fun _ _ => 0) (fun _ _ => 0) (fun _ _ => 0) (fun _ _ => 0)
      [VGGModule.maxPool] = Except.ok [VGGModule.maxPool] :=
  c8_unknown_mode_strings "bogus" "bogus" (by decide) (by decide) (by decide)
    (by decide) 784 256 10 (1/10) (fun _ _ _ => 0) false (fun _ _ _ _ => 0)
    (fun _ _ _ _ => 0) (fun _ _ => 0) (fun _ _ => 0) (fun _ _ => 0)
    (fun _ _ => 0) [VGGModule.maxPool]

/-! ### Non-IID Dirichlet partitioner (dataset.py, _get_dirichlet_data)

The function is stochastic; its random draws are parameters of the
embedding: p is the matrix of Dirichlet draws p_client (row per client),
shuffleClass models np.random.shuffle of each class's index array,
clients models np.random.randint(n), us models np.random.uniform(), and
shuffleFinal models the final per-client shuffle.  The two while-loops of
the equal-partition branch run on explicit fuel and yield none when it runs
out; the source has no bound of its own.  The trailing statistics block of
the source (net_cls_counts, weights, prints) is diagnostic logging that does
not affect the returned value and is omitted. -/

/-- np.where(labelList_true == k)[0]: the positions holding label k, in
increasing order. -/
def classIndices (labels : List ℕ) (k : ℕ) : List ℕ :=
  (List.range labels.length).filter (fun i => labels.getD i 0 == k)

/-- Python slice l[a:b] for nonnegative bounds. -/
def pySlice (l : List ℕ) (a b : ℕ) : List ℕ := (l.drop a).take (b - a)

/-- np.split(l, cuts): pieces l[0:c1], l[c1:c2], ..., l[c_last:]. -/
def npSplitAux (l : List ℕ) : ℕ → List ℕ → List (List ℕ)
  | prev, [] => [l.drop prev]
  | prev, c :: cs => pySlice l prev c :: npSplitAux l c cs

def npSplit (l : List ℕ) (cuts : List ℕ) : List (List ℕ) := npSplitAux l 0 cuts

/-- The split points of the unconstrained branch:
proportions = p_client[:, k]; proportions /= proportions.sum();
proportions = (np.cumsum(proportions) * len(idx_k)).astype(int)[:-1].
astype(int) truncates toward zero, which on these nonnegative values is the
floor. -/
def propCuts (p : ℕ → ℕ → ℚ) (n k len : ℕ) : List ℕ :=
  (List.range (n - 1)).map (fun i =>
    (⌊(∑ j ∈ Finset.range (i + 1), p j k / ∑ j2 ∈ Finset.range n, p j2 k) *
      (len : ℚ)⌋).toNat)

/-- One iteration of the unconstrained loop (dataset.py lines 47-56) for
class k: shuffle the class's indices, split them at the cumulative
proportions, and append piece i to client i. -/
def unconstrainedStep (labels : List ℕ) (n : ℕ) (p : ℕ → ℕ → ℚ)
    (shuffleClass : ℕ → List ℕ → List ℕ) (batch : List (List ℕ)) (k : ℕ) :
    List (List ℕ) :=
  List.zipWith (· ++ ·) batch
    (npSplit (shuffleClass k (classIndices labels k))
      (propCuts p n k (shuffleClass k (classIndices labels k)).length))

def unconstrainedPartition (labels : List ℕ) (n K : ℕ) (p : ℕ → ℕ → ℚ)
    (shuffleClass : ℕ → List ℕ → List ℕ) : List (List ℕ) :=
  (List.range K).foldl (unconstrainedStep labels n p shuffleClass)
    (List.replicate n [])

/-- np.argmax(u <= cdf): index of the first entry with u ≤ cdf[i]; when every
comparison is False, np.argmax returns 0. -/
def pickClassAux (u : ℚ) : List ℚ → Option ℕ
  | [] => none
  | c :: cs => if u ≤ c then some 0 else (pickClassAux u cs).map (· + 1)

def pickClass (cdf : List ℚ) (u : ℚ) : ℕ := (pickClassAux u cdf).getD 0

/-- Row i of np.cumsum(p_client, axis=1). -/
def cdfRow (p : ℕ → ℕ → ℚ) (K i : ℕ) : List ℚ :=
  (List.range K).map (fun j => ∑ j2 ∈ Finset.range (j + 1), p i j2)

/-- The inner while True loop of the equal-partition branch (dataset.py
lines 69-77): draw a uniform, pick a class from the client's cdf, retry with
a fresh draw while that class is exhausted.  The source loops without any
bound; fuel counts the retries our execution is willing to observe, and
none means the loop was still running. -/
def innerPick (cdf : List ℚ) (counter : ℕ → ℕ) (idxLabels : List (List ℕ))
    (us : ℕ → ℚ) : ℕ → ℕ → Option (ℕ × ℕ)
  | 0, _ => none
  | fuel + 1, t =>
    if (idxLabels.getD (pickClass cdf (us t)) []).length ≤
        counter (pickClass cdf (us t)) then
      innerPick cdf counter idxLabels us fuel (t + 1)
    else
      some (pickClass cdf (us t), t + 1)

/-- The outer while total_cnt < m*n loop of the equal-partition branch
(dataset.py lines 63-77): pick a random client, skip it if it already holds
m indices, otherwise assign it the next unused index of a sampled class. -/
def constrainedLoop (m n : ℕ) (cdf : ℕ → List ℚ) (idxLabels : List (List ℕ))
    (clients : ℕ → ℕ) (us : ℕ → ℚ) :
    ℕ → List (List ℕ) → (ℕ → ℕ) → ℕ → ℕ → ℕ → Option (List (List ℕ))
  | 0, batch, _, total, _, _ => if m * n ≤ total then some batch else none
  | fuel + 1, batch, counter, total, s, t =>
    if m * n ≤ total then some batch
    else if m ≤ (batch.getD (clients s) []).length then
      constrainedLoop m n cdf idxLabels clients us fuel batch counter total
        (s + 1) t
    else
      match innerPick (cdf (clients s)) counter idxLabels us fuel t with
      | none => none
      | some (cls, t2) =>
        constrainedLoop m n cdf idxLabels clients us fuel
          (batch.set (clients s) (batch.getD (clients s) [] ++
            [(idxLabels.getD cls []).getD (counter cls) 0]))
          (fun k2 => if k2 = cls then counter cls + 1 else counter k2)
          (total + 1) (s + 1) t2

/-- The final loop for j in range(n_nets): np.random.shuffle(idx_batch[j]). -/
def shuffleEach (sf : ℕ → List ℕ → List ℕ) : ℕ → List (List ℕ) → List (List ℕ)
  | _, [] => []
  | j, l :: ls => sf j l :: shuffleEach sf (j + 1) ls

/-- _get_dirichlet_data(y, n, alpha, num_c, partition_equal): m = int(N/n);
dispatch on partition_equal, then shuffle each client's list and return. -/
def getDirichletData (labels : List ℕ) (n K : ℕ) (p : ℕ → ℕ → ℚ)
    (partitionEqual : Bool) (shuffleClass : ℕ → List ℕ → List ℕ)
    (clients : ℕ → ℕ) (us : ℕ → ℚ) (fuel : ℕ)
    (shuffleFinal : ℕ → List ℕ → List ℕ) : Option (List (List ℕ)) :=
  (if partitionEqual = false then
    some (unconstrainedPartition labels n K p shuffleClass)
  else
    constrainedLoop (labels.length / n) n (cdfRow p K)
      ((List.range K).map (classIndices labels)) clients us fuel
      (List.replicate n []) (fun _ => 0) 0 0 0).map
    (shuffleEach shuffleFinal 0)

theorem npSplitAux_length (l : List ℕ) :
    ∀ cuts prev, (npSplitAux l prev cuts).length = cuts.length + 1 := by
  intro cuts
  induction cuts with
  | nil => intro prev; rfl
  | cons c cs ih => intro prev; simp [npSplitAux, ih]

/-- Joining the pieces of np.split recovers the array whenever the cut
points are nondecreasing (cumulative sums always are). -/
theorem npSplitAux_flatten (l : List ℕ) :
    ∀ cuts prev, List.Chain (· ≤ ·) prev cuts →
      (npSplitAux l prev cuts).flatten = l.drop prev := by
  intro cuts
  induction cuts with
  | nil => intro prev _; simp [npSplitAux]
  | cons c cs ih =>
    intro prev hch
    rcases List.chain_cons.mp hch with ⟨hpc, hcs⟩
    simp only [npSplitAux, List.flatten_cons, ih c hcs, pySlice]
    have hd : l.drop c = (l.drop prev).drop (c - prev) := by
      rw [List.drop_drop]
      congr 1
      omega
    rw [hd, List.take_append_drop]

theorem npSplit_flatten (l : List ℕ) (cuts : List ℕ)
    (h : List.Chain (· ≤ ·) 0 cuts) : (npSplit l cuts).flatten = l :=
  npSplitAux_flatten l cuts 0 h

theorem chain_le_map_range :
    ∀ (k : ℕ) (f : ℕ → ℕ), (∀ i, f i ≤ f (i + 1)) → ∀ a, a ≤ f 0 →
      List.Chain (· ≤ ·) a ((List.range k).map f) := by
  intro k
  induction k with
  | zero => intro f _ a _; simp [List.Chain.nil]
  | succ k ih =>
    intro f hf a ha
    rw [List.range_succ_eq_map, List.map_cons, List.map_map]
    exact List.Chain.cons ha (ih (f ∘ Nat.succ) (fun i => hf (i + 1)) (f 0) (hf 0))

theorem propCuts_chain (p : ℕ → ℕ → ℚ) (n k len : ℕ)
    (hp : ∀ j, 0 ≤ p j k) : List.Chain (· ≤ ·) 0 (propCuts p n k len) := by
  apply chain_le_map_range
  · intro i
    have hq : (0 : ℚ) ≤ p (i + 1) k / ∑ j2 ∈ Finset.range n, p j2 k :=
      div_nonneg (hp _) (Finset.sum_nonneg fun j _ => hp j)
    have hmono : (∑ j ∈ Finset.range (i + 1), p j k / ∑ j2 ∈ Finset.range n, p j2 k) *
        (len : ℚ) ≤
        (∑ j ∈ Finset.range (i + 1 + 1), p j k / ∑ j2 ∈ Finset.range n, p j2 k) *
        (len : ℚ) := by
      apply mul_le_mul_of_nonneg_right _ (by positivity)
      apply Finset.sum_le_sum_of_subset_of_nonneg
        (Finset.range_subset.mpr (by omega))
      intro j _ _
      exact div_nonneg (hp j) (Finset.sum_nonneg fun j2 _ => hp j2)
    exact Int.toNat_le_toNat (Int.floor_le_floor hmono)
  · exact Nat.zero_le _

theorem flatten_zipWith_append :
    ∀ (a b : List (List ℕ)), a.length = b.length →
      (List.zipWith (· ++ ·) a b).flatten.Perm (a.flatten ++ b.flatten) := by
  intro a
  induction a with
  | nil =>
    intro b hb
    cases b with
    | nil => simp
    | cons y ys => simp at hb
  | cons x xs ih =>
    intro b hb
    cases b with
    | nil => simp at hb
    | cons y ys =>
      simp only [List.zipWith_cons_cons, List.flatten_cons, List.append_assoc]
      refine List.Perm.append_left x ?_
      have h1 : (List.zipWith (· ++ ·) xs ys).flatten.Perm
          (xs.flatten ++ ys.flatten) := ih ys (by simpa using hb)
      have h2 : (y ++ (List.zipWith (· ++ ·) xs ys).flatten).Perm
          (y ++ (xs.flatten ++ ys.flatten)) := List.Perm.append_left y h1
      have h3 : (y ++ (xs.flatten ++ ys.flatten)).Perm
          (xs.flatten ++ (y ++ ys.flatten)) := by
        rw [← List.append_assoc, ← List.append_assoc]
        exact List.Perm.append_right ys.flatten List.perm_append_comm
      exact h2.trans h3

theorem flatten_replicate_nil :
    ∀ n : ℕ, (List.replicate n ([] : List ℕ)).flatten = [] := by
  intro n
  induction n with
  | zero => rfl
  | succ n ih => simp [List.replicate_succ, ih]

theorem unconstrainedStep_length (labels : List ℕ) (n : ℕ) (p : ℕ → ℕ → ℚ)
    (shuffleClass : ℕ → List ℕ → List ℕ) (batch : List (List ℕ)) (k : ℕ)
    (hn : 0 < n) (hb : batch.length = n) :
    (unconstrainedStep labels n p shuffleClass batch k).length = n := by
  simp only [unconstrainedStep, List.length_zipWith, hb, npSplit,
    npSplitAux_length, propCuts, List.length_map, List.length_range]
  omega

theorem unconstrainedFold_flatten_perm (labels : List ℕ) (n : ℕ)
    (p : ℕ → ℕ → ℚ) (shuffleClass : ℕ → List ℕ → List ℕ) (hn : 0 < n)
    (hp : ∀ j k, 0 ≤ p j k) (hsc : ∀ k l, (shuffleClass k l).Perm l) :
    ∀ (ks : List ℕ) (batch : List (List ℕ)), batch.length = n →
      ((ks.foldl (unconstrainedStep labels n p shuffleClass) batch).flatten).Perm
        (batch.flatten ++ ks.flatMap (classIndices labels)) := by
  intro ks
  induction ks with
  | nil => intro batch _; simp
  | cons k ks ih =>
    intro batch hb
    rw [List.foldl_cons]
    have hstep : (unconstrainedStep labels n p shuffleClass batch k).flatten.Perm
        (batch.flatten ++ classIndices labels k) := by
      have hz := flatten_zipWith_append batch
        (npSplit (shuffleClass k (classIndices labels k))
          (propCuts p n k (shuffleClass k (classIndices labels k)).length))
        (by simp [hb, npSplit, npSplitAux_length, propCuts]; omega)
      have hflat : (npSplit (shuffleClass k (classIndices labels k))
          (propCuts p n k (shuffleClass k (classIndices labels k)).length)).flatten =
          shuffleClass k (classIndices labels k) :=
        npSplit_flatten _ _ (propCuts_chain p n k _ (fun j => hp j k))
      rw [hflat] at hz
      exact hz.trans (List.Perm.append_left _ (hsc k _))
    have h4 := ih (unconstrainedStep labels n p shuffleClass batch k)
      (unconstrainedStep_length labels n p shuffleClass batch k hn hb)
    have h5 : ((unconstrainedStep labels n p shuffleClass batch k).flatten ++
        ks.flatMap (classIndices labels)).Perm
        ((batch.flatten ++ classIndices labels k) ++
          ks.flatMap (classIndices labels)) :=
      List.Perm.append_right _ hstep
    have h6 : (batch.flatten ++ classIndices labels k) ++
        ks.flatMap (classIndices labels) =
        batch.flatten ++ (k :: ks).flatMap (classIndices labels) := by
      rw [List.append_assoc, List.flatMap_cons]
    exact h4.trans (h6 ▸ h5)

theorem classIndices_nodup (labels : List ℕ) (k : ℕ) :
    (classIndices labels k).Nodup :=
  (List.nodup_range _).filter _

theorem mem_classIndices {labels : List ℕ} {k i : ℕ} :
    i ∈ classIndices labels k ↔ i < labels.length ∧ labels.getD i 0 = k := by
  simp [classIndices, List.mem_filter, List.mem_range]

theorem classBind_nodup (labels : List ℕ) (K : ℕ) :
    ((List.range K).flatMap (classIndices labels)).Nodup := by
  rw [List.nodup_flatMap]
  refine ⟨fun k _ => classIndices_nodup labels k, ?_⟩
  refine List.Pairwise.imp ?_ (List.nodup_range K)
  intro k1 k2 hne i hi1 hi2
  rcases mem_classIndices.mp hi1 with ⟨_, h1⟩
  rcases mem_classIndices.mp hi2 with ⟨_, h2⟩
  exact hne (h1 ▸ h2 ▸ rfl)

theorem classBind_perm {labels : List ℕ} {K : ℕ}
    (hK : ∀ x ∈ labels, x < K) :
    ((List.range K).flatMap (classIndices labels)).Perm
      (List.range labels.length) := by
  apply List.perm_of_nodup_nodup_toFinset_eq (classBind_nodup labels K)
    (List.nodup_range _)
  ext a
  simp only [List.mem_toFinset, List.mem_flatMap, List.mem_range]
  constructor
  · rintro ⟨k, _, hk⟩
    exact (mem_classIndices.mp hk).1
  · intro ha
    refine ⟨labels.getD a 0, ?_, mem_classIndices.mpr ⟨ha, rfl⟩⟩
    apply hK
    rw [List.getD_eq_getElem labels 0 ha]
    exact List.getElem_mem ha

theorem flatten_length_le (m : ℕ) :
    ∀ ls : List (List ℕ), (∀ l ∈ ls, l.length ≤ m) →
      ls.flatten.length ≤ m * ls.length := by
  intro ls
  induction ls with
  | nil => intro _; simp
  | cons l ls ih =>
    intro hb
    have h1 : l.length ≤ m := hb l (by simp)
    have h2 := ih (fun l2 hl2 => hb l2 (by simp [hl2]))
    simp only [List.flatten_cons, List.length_append, List.length_cons]
    have : m * (ls.length + 1) = m * ls.length + m := by ring
    omega

theorem all_eq_of_flatten_length (m : ℕ) :
    ∀ ls : List (List ℕ), (∀ l ∈ ls, l.length ≤ m) →
      ls.flatten.length = m * ls.length → ∀ l ∈ ls, l.length = m := by
  intro ls
  induction ls with
  | nil => intro _ _ l hl; simp at hl
  | cons l ls ih =>
    intro hb hlen l2 hl2
    have h1 : l.length ≤ m := hb l (by simp)
    have h2 := flatten_length_le m ls (fun l3 hl3 => hb l3 (by simp [hl3]))
    simp only [List.flatten_cons, List.length_append, List.length_cons] at hlen
    have hm : m * (ls.length + 1) = m * ls.length + m := by ring
    have hlm : l.length = m := by omega
    have hrest : ls.flatten.length = m * ls.length := by omega
    rcases List.mem_cons.mp hl2 with h | h
    · rw [h, hlm]
    · exact ih (fun l3 hl3 => hb l3 (by simp [hl3])) hrest l2 h

theorem flatten_set_append :
    ∀ (batch : List (List ℕ)) (c : ℕ) (x : ℕ), c < batch.length →
      (batch.set c (batch.getD c [] ++ [x])).flatten.Perm
        (batch.flatten ++ [x]) := by
  intro batch
  induction batch with
  | nil => intro c x hc; simp at hc
  | cons b bs ih =>
    intro c x hc
    cases c with
    | zero =>
      simp only [List.set_cons_zero, List.getD_cons_zero, List.flatten_cons,
        List.append_assoc]
      refine List.Perm.append_left b ?_
      exact List.perm_append_comm
    | succ c =>
      simp only [List.set_cons_succ, List.getD_cons_succ, List.flatten_cons]
      have hlt : c < bs.length := by simpa using hc
      have h1 := ih c x hlt
      have h2 : (b ++ (bs.set c (bs.getD c [] ++ [x])).flatten).Perm
          (b ++ (bs.flatten ++ [x])) := List.Perm.append_left b h1
      rw [← List.append_assoc] at h2
      exact h2

theorem flatMap_congr_mem {g g2 : ℕ → List ℕ} :
    ∀ ks : List ℕ, (∀ k ∈ ks, g2 k = g k) → ks.flatMap g2 = ks.flatMap g := by
  intro ks
  induction ks with
  | nil => intro _; rfl
  | cons a ks ih =>
    intro h
    simp only [List.flatMap_cons, h a (by simp), ih fun k hk => h k (by simp [hk])]

theorem flatMap_update_perm :
    ∀ (ks : List ℕ) (g g2 : ℕ → List ℕ) (k0 x : ℕ), ks.Nodup → k0 ∈ ks →
      (∀ k, k ≠ k0 → g2 k = g k) → g2 k0 = g k0 ++ [x] →
      (ks.flatMap g2).Perm (ks.flatMap g ++ [x]) := by
  intro ks
  induction ks with
  | nil => intro g g2 k0 x _ hk0 _ _; simp at hk0
  | cons a ks ih =>
    intro g g2 k0 x hnd hk0 hg hg0
    have hand := List.nodup_cons.mp hnd
    simp only [List.flatMap_cons]
    by_cases ha : a = k0
    · subst ha
      rw [hg0, flatMap_congr_mem ks fun k hk => hg k fun he => hand.1 (he ▸ hk)]
      rw [List.append_assoc, List.append_assoc]
      exact List.Perm.append_left (g a) List.perm_append_comm
    · have hk0ks : k0 ∈ ks := by
        rcases List.mem_cons.mp hk0 with h | h
        · exact absurd h.symm ha
        · exact h
      rw [hg a ha]
      have h1 := ih g g2 k0 x hand.2 hk0ks hg hg0
      have h2 : (g a ++ ks.flatMap g2).Perm (g a ++ (ks.flatMap g ++ [x])) :=
        List.Perm.append_left (g a) h1
      rw [← List.append_assoc] at h2
      exact h2

theorem take_succ_getD :
    ∀ (l : List ℕ) (c : ℕ), c < l.length →
      l.take (c + 1) = l.take c ++ [l.getD c 0] := by
  intro l
  induction l with
  | nil => intro c hc; simp at hc
  | cons a l ih =>
    intro c hc
    cases c with
    | zero => rfl
    | succ c =>
      have hlt : c < l.length := by simpa using hc
      simp only [List.take_succ_cons, List.getD_cons_succ, List.cons_append]
      rw [← ih c hlt]

theorem innerPick_some {cdf : List ℚ} {counter : ℕ → ℕ}
    {idxLabels : List (List ℕ)} {us : ℕ → ℚ} :
    ∀ fuel t cls t2,
      innerPick cdf counter idxLabels us fuel t = some (cls, t2) →
      counter cls < (idxLabels.getD cls []).length := by
  intro fuel
  induction fuel with
  | zero => intro t cls t2 h; exact absurd h (by simp [innerPick])
  | succ fuel ih =>
    intro t cls t2 h
    rw [innerPick] at h
    split_ifs at h with hc
    · exact ih (t + 1) cls t2 h
    · simp only [Option.some.injEq, Prod.mk.injEq] at h
      rw [← h.1]
      omega

theorem flatMap_take_sublist (idxLabels : List (List ℕ)) (counter : ℕ → ℕ) :
    ∀ ks : List ℕ,
      (ks.flatMap fun k => (idxLabels.getD k []).take (counter k)).Sublist
        (ks.flatMap fun k => idxLabels.getD k []) := by
  intro ks
  induction ks with
  | nil => simp
  | cons a ks ih =>
    simp only [List.flatMap_cons]
    exact List.Sublist.append (List.take_sublist _ _) ih

/-- Exit reasoning of the constrained loop: once total = m·n, every client
holds exactly m indices, the flattened assignment has no duplicates, and
every assigned index comes from some class list. -/
theorem constrainedExit {m n : ℕ} {idxLabels : List (List ℕ)}
    {batch : List (List ℕ)} {counter : ℕ → ℕ}
    (hND : ((List.range idxLabels.length).flatMap
      (fun k => idxLabels.getD k [])).Nodup)
    (hlen : batch.length = n) (hbd : ∀ l ∈ batch, l.length ≤ m)
    (hperm : batch.flatten.Perm ((List.range idxLabels.length).flatMap
      (fun k => (idxLabels.getD k []).take (counter k))))
    (htot : m * n ≤ batch.flatten.length) :
    batch.length = n ∧ (∀ l ∈ batch, l.length = m) ∧ batch.flatten.Nodup ∧
      (∀ i ∈ batch.flatten, ∃ l ∈ idxLabels, i ∈ l) := by
  have hup := flatten_length_le m batch hbd
  rw [hlen] at hup
  have hfl : batch.flatten.length = m * batch.length := by rw [hlen]; omega
  have hsub := flatMap_take_sublist idxLabels counter (List.range idxLabels.length)
  refine ⟨hlen, all_eq_of_flatten_length m batch hbd hfl, ?_, ?_⟩
  · exact hperm.nodup_iff.mpr (hND.sublist hsub)
  · intro i hi
    have h1 : i ∈ (List.range idxLabels.length).flatMap
        (fun k => idxLabels.getD k []) :=
      hsub.subset (hperm.mem_iff.mp hi)
    rcases List.mem_flatMap.mp h1 with ⟨k, hk, hik⟩
    have hklt : k < idxLabels.length := List.mem_range.mp hk
    refine ⟨idxLabels.getD k [], ?_, hik⟩
    rw [List.getD_eq_getElem idxLabels [] hklt]
    exact List.getElem_mem hklt

/-- Invariant proof for the equal-partition loop: whenever it returns a
batch, every client holds exactly m indices, no index is assigned twice, and
every assigned index comes from one of the class index lists. -/
theorem constrainedLoop_post (m n : ℕ) (cdf : ℕ → List ℚ)
    (idxLabels : List (List ℕ)) (clients : ℕ → ℕ) (us : ℕ → ℚ)
    (hcl : ∀ s2, clients s2 < n)
    (hND : ((List.range idxLabels.length).flatMap
      (fun k => idxLabels.getD k [])).Nodup) :
    ∀ fuel batch counter total s t out,
      batch.length = n →
      (∀ l ∈ batch, l.length ≤ m) →
      total = batch.flatten.length →
      batch.flatten.Perm ((List.range idxLabels.length).flatMap
        (fun k => (idxLabels.getD k []).take (counter k))) →
      constrainedLoop m n cdf idxLabels clients us fuel batch counter total
        s t = some out →
      out.length = n ∧ (∀ l ∈ out, l.length = m) ∧ out.flatten.Nodup ∧
        (∀ i ∈ out.flatten, ∃ l ∈ idxLabels, i ∈ l) := by
  intro fuel
  induction fuel with
  | zero =>
    intro batch counter total s t out hlen hbd htot hperm h
    rw [constrainedLoop] at h
    split_ifs at h with hexit
    · simp only [Option.some.injEq] at h
      subst h
      exact constrainedExit hND hlen hbd hperm (htot ▸ hexit)
  | succ fuel ih =>
    intro batch counter total s t out hlen hbd htot hperm h
    rw [constrainedLoop] at h
    split_ifs at h with hexit hfull
    · simp only [Option.some.injEq] at h
      subst h
      exact constrainedExit hND hlen hbd hperm (htot ▸ hexit)
    · exact ih batch counter total (s + 1) t out hlen hbd htot hperm h
    · cases hip : innerPick (cdf (clients s)) counter idxLabels us fuel t with
      | none => rw [hip] at h; exact absurd h (by simp)
      | some pr =>
        obtain ⟨cls, t2⟩ := pr
        rw [hip] at h
        have hcnt := innerPick_some fuel t cls t2 hip
        have hc : clients s < batch.length := hlen ▸ hcl s
        have hsetperm := flatten_set_append batch (clients s)
          ((idxLabels.getD cls []).getD (counter cls) 0) hc
        have hclsK : cls < idxLabels.length := by
          by_contra hge
          rw [List.getD_eq_default] at hcnt
          · simp at hcnt
          · omega
        have htake : (idxLabels.getD cls []).take (counter cls + 1) =
            (idxLabels.getD cls []).take (counter cls) ++
              [(idxLabels.getD cls []).getD (counter cls) 0] :=
          take_succ_getD _ _ hcnt
        have hflup := flatMap_update_perm (List.range idxLabels.length)
          (fun k => (idxLabels.getD k []).take (counter k))
          (fun k => (idxLabels.getD k []).take
            (if k = cls then counter cls + 1 else counter k))
          cls ((idxLabels.getD cls []).getD (counter cls) 0)
          (List.nodup_range _) (List.mem_range.mpr hclsK)
          (fun k hk => by
            show List.take (if k = cls then counter cls + 1 else counter k)
                (idxLabels.getD k []) =
              List.take (counter k) (idxLabels.getD k [])
            rw [if_neg hk])
          (by
            show List.take (if cls = cls then counter cls + 1 else counter cls)
                (idxLabels.getD cls []) =
              List.take (counter cls) (idxLabels.getD cls []) ++
                [(idxLabels.getD cls []).getD (counter cls) 0]
            rw [if_pos rfl, htake])
        refine ih (batch.set (clients s) (batch.getD (clients s) [] ++
            [(idxLabels.getD cls []).getD (counter cls) 0]))
          (fun k2 => if k2 = cls then counter cls + 1 else counter k2)
          (total + 1) (s + 1) t2 out ?_ ?_ ?_ ?_ h
        · rw [List.length_set]; exact hlen
        · intro l hl
          rcases List.mem_or_eq_of_mem_set hl with h1 | h1
          · exact hbd l h1
          · rw [h1, List.length_append]
            simp only [List.length_cons, List.length_nil]
            omega
        · rw [hsetperm.length_eq, List.length_append]
          simp only [List.length_cons, List.length_nil]
          omega
        · exact (hsetperm.trans (List.Perm.append_right _ hperm)).trans
            hflup.symm

theorem getD_map_range (f : ℕ → List ℕ) (K k : ℕ) (hk : k < K) :
    ((List.range K).map f).getD k [] = f k := by
  rw [List.getD_eq_getElem _ _ (by simpa using hk)]
  simp

theorem flatMap_nil_fun : ∀ ks : List ℕ,
    (ks.flatMap fun _ => ([] : List ℕ)) = [] := by
  intro ks
  induction ks with
  | nil => rfl
  | cons a ks ih => simp [List.flatMap_cons, ih]

theorem shuffleEach_length (sf : ℕ → List ℕ → List ℕ) :
    ∀ (ls : List (List ℕ)) (j : ℕ), (shuffleEach sf j ls).length = ls.length := by
  intro ls
  induction ls with
  | nil => intro j; rfl
  | cons l ls ih => intro j; simp [shuffleEach, ih]

theorem shuffleEach_flatten_perm (sf : ℕ → List ℕ → List ℕ)
    (hsf : ∀ j l, (sf j l).Perm l) :
    ∀ (ls : List (List ℕ)) (j : ℕ),
      (shuffleEach sf j ls).flatten.Perm ls.flatten := by
  intro ls
  induction ls with
  | nil => intro j; simp [shuffleEach]
  | cons l ls ih =>
    intro j
    simp only [shuffleEach, List.flatten_cons]
    exact List.Perm.append (hsf j l) (ih (j + 1))

theorem shuffleEach_mem (sf : ℕ → List ℕ → List ℕ)
    (hsf : ∀ j l, (sf j l).Perm l) :
    ∀ (ls : List (List ℕ)) (j : ℕ) (l2 : List ℕ),
      l2 ∈ shuffleEach sf j ls → ∃ l ∈ ls, l2.length = l.length := by
  intro ls
  induction ls with
  | nil => intro j l2 h; simp [shuffleEach] at h
  | cons l ls ih =>
    intro j l2 h
    rcases List.mem_cons.mp h with h1 | h1
    · exact ⟨l, by simp, h1 ▸ (hsf j l).length_eq⟩
    · rcases ih (j + 1) l2 h1 with ⟨l3, hl3, he⟩
      exact ⟨l3, by simp [hl3], he⟩

/-- C5: under the claim's preconditions (and the distributional facts about
the random sources: Dirichlet draws are nonnegative, shuffles permute,
randint draws are below num_clients), any output of _get_dirichlet_data uses
every index at most once and only valid indices; in unconstrained mode the
client sizes sum to len(labels); in constrained mode there are num_clients
clients, each holding exactly floor(N/num_clients) indices. -/
theorem c5_partitioner_postconditions (labels : List ℕ) (n K : ℕ)
    (p : ℕ → ℕ → ℚ) (pe : Bool) (shuffleClass : ℕ → List ℕ → List ℕ)
    (clients : ℕ → ℕ) (us : ℕ → ℚ) (fuel : ℕ)
    (shuffleFinal : ℕ → List ℕ → List ℕ) (res : List (List ℕ))
    (hn : 0 < n) (hlab : ∀ x ∈ labels, x < K) (hp : ∀ j k, 0 ≤ p j k)
    (hsc : ∀ k l, (shuffleClass k l).Perm l)
    (hsf : ∀ j l, (shuffleFinal j l).Perm l) (hcl : ∀ s2, clients s2 < n)
    (hres : getDirichletData labels n K p pe shuffleClass clients us fuel
      shuffleFinal = some res) :
    res.flatten.Nodup ∧ (∀ i ∈ res.flatten, i < labels.length) ∧
    (pe = false → res.flatten.length = labels.length) ∧
    (pe = true → res.length = n ∧ ∀ l ∈ res, l.length = labels.length / n) := by
  cases pe with
  | false =>
    rw [getDirichletData, if_pos rfl] at hres
    have hres2 := Option.some.inj hres
    subst hres2
    have hU := unconstrainedFold_flatten_perm labels n p shuffleClass hn hp hsc
      (List.range K) (List.replicate n []) (by simp)
    rw [flatten_replicate_nil, List.nil_append] at hU
    have hcomb : (shuffleEach shuffleFinal 0
        (unconstrainedPartition labels n K p shuffleClass)).flatten.Perm
        (List.range labels.length) :=
      ((shuffleEach_flatten_perm shuffleFinal hsf _ 0).trans
        hU).trans (classBind_perm hlab)
    refine ⟨hcomb.nodup_iff.mpr (List.nodup_range _), ?_, ?_, by simp⟩
    · intro i hi
      exact List.mem_range.mp (hcomb.mem_iff.mp hi)
    · intro _
      rw [hcomb.length_eq, List.length_range]
  | true =>
    rw [getDirichletData, if_neg (by simp)] at hres
    cases hloop : constrainedLoop (labels.length / n) n (cdfRow p K)
        ((List.range K).map (classIndices labels)) clients us fuel
        (List.replicate n []) (fun _ => 0) 0 0 0 with
    | none => rw [hloop] at hres; simp at hres
    | some out =>
      rw [hloop] at hres
      have hres2 := Option.some.inj hres
      subst hres2
      have hndtop : ((List.range
          ((List.range K).map (classIndices labels)).length).flatMap
          (fun k => ((List.range K).map (classIndices labels)).getD k [])).Nodup := by
        have hlen : ((List.range K).map (classIndices labels)).length = K := by
          simp
        rw [hlen, flatMap_congr_mem (List.range K)
          (fun k hk => getD_map_range _ K k (List.mem_range.mp hk))]
        exact classBind_nodup labels K
      have hinit : (List.replicate n ([] : List ℕ)).flatten.Perm
          ((List.range ((List.range K).map (classIndices labels)).length).flatMap
            (fun k => (((List.range K).map (classIndices labels)).getD k []).take
              ((fun _ => 0) k))) := by
        rw [flatten_replicate_nil,
          flatMap_congr_mem _ (fun k _ => List.take_zero _),
          flatMap_nil_fun]
      have hpost := constrainedLoop_post (labels.length / n) n (cdfRow p K)
        ((List.range K).map (classIndices labels)) clients us hcl hndtop fuel
        (List.replicate n []) (fun _ => 0) 0 0 0 out (by simp)
        (fun l hl => by rw [List.eq_of_mem_replicate hl]; simp)
        (by rw [flatten_replicate_nil]; rfl) hinit hloop
      have hmemN : ∀ i ∈ out.flatten, i < labels.length := by
        intro i hi
        rcases hpost.2.2.2 i hi with ⟨l, hl, hil⟩
        rcases List.mem_map.mp hl with ⟨k, _, rfl⟩
        exact (mem_classIndices.mp hil).1
      have hflat := shuffleEach_flatten_perm shuffleFinal hsf out 0
      refine ⟨hflat.nodup_iff.mpr hpost.2.2.1, ?_, by simp, ?_⟩
      · intro i hi
        exact hmemN i (hflat.mem_iff.mp hi)
      · intro _
        refine ⟨by rw [shuffleEach_length]; exact hpost.1, ?_⟩
        intro l hl
        rcases shuffleEach_mem shuffleFinal hsf out 0 l hl with ⟨l3, hl3, he⟩
        rw [he]
        exact hpost.2.1 l3 hl3

/-- Witness for C5: labels [0, 1] over 2 classes, one client, identity
shuffles, unconstrained mode.  The single client receives [0, 1]. -/
theorem c5_partitioner_postconditions_witness :
    (0 < 1 ∧ ∀ x ∈ [0, 1], x < 2) ∧
    ([[0, 1]] : List (List ℕ)).flatten.Nodup ∧
    (∀ i ∈ ([[0, 1]] : List (List ℕ)).flatten, i < ([0, 1] : List ℕ).length) ∧
    (false = false →
      ([[0, 1]] : List (List ℕ)).flatten.length = ([0, 1] : List ℕ).length) ∧
    (false = true → ([[0, 1]] : List (List ℕ)).length = 1 ∧
      ∀ l ∈ ([[0, 1]] : List (List ℕ)), l.length = ([0, 1] : List ℕ).length / 1) :=
  ⟨⟨by decide, by decide⟩,
    c5_partitioner_postconditions [0, 1] 1 2 (fun _ _ => 1) false
      (fun _ l => l) (fun _ => 0) (fun _ => 0) 0 (fun _ l => l) [[0, 1]]
      (by decide) (by decide) (fun j k => by norm_num)
      (fun k l => List.Perm.refl l) (fun j l => List.Perm.refl l)
      (fun s2 => Nat.zero_lt_one) (by decide)⟩

/-- C7: the constrained-mode sampling loop has no retry bound and raises no
error.  On labels [1] (class 0 empty) with one client and uniform draws that
always select the exhausted class 0 (u = 1/4 against the cdf row [1, 2]),
the inner while True loop retries forever: for every amount of fuel the
execution is still running — it neither completes nor surfaces any fatal
error, refuting the claim that the loop is bounded and errors out. -/
theorem c7_constrained_loop_retries_without_bound :
    ∀ fuel, getDirichletData [1] 1 2 (fun _ _ => 1) true (fun _ l => l)
      (fun _ => 0) (fun _ => 1/4) fuel (fun _ l => l) = none := by
  have hpc : pickClass [1, 2] (1/4 : ℚ) = 0 := by
    unfold pickClass pickClassAux
    rw [if_pos (by norm_num : (1/4 : ℚ) ≤ 1)]
    rfl
  have hcdf : cdfRow (fun _ _ => (1 : ℚ)) 2 0 = [1, 2] := by
    unfold cdfRow
    rw [show List.range 2 = [0, 1] from rfl]
    simp [Finset.sum_range_succ]
    norm_num
  have hinner : ∀ g t, innerPick [1, 2] (fun _ => 0) [[], [0]]
      (fun _ => (1/4 : ℚ)) g t = none := by
    intro g
    induction g with
    | zero => intro t; rfl
    | succ g ih =>
      intro t
      simp only [innerPick, hpc, List.getD_cons_zero, List.length_nil,
        Nat.le_refl, if_true]
      exact ih (t + 1)
  have houter : ∀ fuel, constrainedLoop 1 1 (cdfRow (fun _ _ => 1) 2)
      [[], [0]] (fun _ => 0) (fun _ => (1/4 : ℚ)) fuel [[]] (fun _ => 0)
      0 0 0 = none := by
    intro fuel
    cases fuel with
    | zero => rfl
    | succ fuel =>
      simp only [constrainedLoop, hcdf, hinner]
      rfl
  intro fuel
  rw [getDirichletData, if_neg (by simp)]
  rw [show (List.range 2).map (classIndices [1]) = [[], [0]] from by decide]
  rw [show ([1] : List ℕ).length / 1 = 1 from rfl]
  rw [show List.replicate 1 ([] : List ℕ) = [[]] from rfl]
  rw [houter fuel]
  rfl

end FedPara
